import Mathlib

/-!
Verification of the diff-to-region extraction and chunk-reconciliation engine
of `scripts/openai_review.py`.

Texts are modelled as lists of characters (Python strings are sequences of
code points); `text.split("\n")` becomes `splitLines`, `"\n".join(...)`
becomes `joinLines`.  All definitions are direct translations of the Python
source.
-/

namespace RedPen

/-- `text.split("\n")`: split a character list at every newline.
The result is always nonempty; an empty text yields one empty line,
exactly as in Python. -/
def splitLines : List Char → List (List Char)
  | [] => [[]]
  | c :: rest =>
    if c = '\n' then [] :: splitLines rest
    else
      match splitLines rest with
      | [] => [[c]]
      | l :: ls => (c :: l) :: ls

/-- `"\n".join(lines)`: join line lists with a newline between them. -/
def joinLines : List (List Char) → List Char
  | [] => []
  | [l] => l
  | l :: l2 :: ls => l ++ '\n' :: joinLines (l2 :: ls)

/-- Length of the longest line of a text (used to state the chunking
round-trip claim's bound on `max_chars`). -/
def longestLineLength (text : List Char) : Nat :=
  ((splitLines text).map List.length).foldr Nat.max 0

/-! ### `chunk_file_by_lines` (source lines 441-472)

```python
lines = file_text.split("\n")
chunks = []
current_chunk_lines = []
current_chunk_size = 0
chunk_start_line = 1
for i, line in enumerate(lines):
    line_with_newline = line + "\n"
    line_size = len(line_with_newline)
    if current_chunk_size + line_size > max_chars and current_chunk_lines:
        chunk_text = "\n".join(current_chunk_lines)
        chunks.append((chunk_text, chunk_start_line))
        current_chunk_lines = []
        current_chunk_size = 0
        chunk_start_line = i + 1
    current_chunk_lines.append(line)
    current_chunk_size += line_size
if current_chunk_lines:
    chunk_text = "\n".join(current_chunk_lines)
    chunks.append((chunk_text, chunk_start_line))
return chunks
```

The loop is modelled by `chunkAux`; a chunk is kept as its list of lines
(the join happens in `chunk_file_by_lines`, as in the source).  `i` is the
0-based index of the next line, `cur`/`curSize`/`startLine` are the mutable
loop variables.  `max_chars` is a Python int, hence `Int`. -/

def chunkAux (maxChars : Int) : List (List Char) → Nat → List (List Char) → Nat → Nat →
    List (List (List Char) × Nat)
  | [], _, cur, _, startLine =>
    if cur = [] then [] else [(cur, startLine)]
  | line :: rest, i, cur, curSize, startLine =>
    let lineSize := line.length + 1
    if ((curSize + lineSize : Int) > maxChars ∧ cur ≠ []) then
      (cur, startLine) :: chunkAux maxChars rest (i + 1) [line] lineSize (i + 1)
    else
      chunkAux maxChars rest (i + 1) (cur ++ [line]) (curSize + lineSize) startLine

/-- `chunk_file_by_lines(file_text, max_chars)`: the returned chunks are
`(chunk_text, start_line_number)` pairs. -/
def chunk_file_by_lines (file_text : List Char) (max_chars : Int) :
    List (List Char × Nat) :=
  (chunkAux max_chars (splitLines file_text) 0 [] 0 1).map (fun c => (joinLines c.1, c.2))

/-- `sum(len(line) + 1 for line in ls)`: the value tracked by
`current_chunk_size` for a chunk holding lines `ls`. -/
def chunkCharSize (ls : List (List Char)) : Nat :=
  (ls.map (fun l => l.length + 1)).sum

/-! ### `parse_diff_hunks` (source lines 371-388)

```python
ranges = []
hunk_pattern = re.compile(r"@@ -\d+(?:,\d+)? \+(\d+)(?:,(\d+))? @@")
for match in hunk_pattern.finditer(patch):
    start_line = int(match.group(1))
    count = int(match.group(2)) if match.group(2) else 1
    end_line = start_line + count - 1
    ranges.append((start_line, end_line))
return ranges
```

The regular expression is deterministic (each `\d+` is followed by a
non-digit, so greedy maximal munch never needs backtracking), so
`finditer` is modelled by a scanner that at each position attempts the
whole pattern via `tryHunkHeader`; on success it continues after the match
(non-overlapping), otherwise it advances one character.  The scanner takes
a fuel argument; `parse_diff_hunks` passes `length + 1`, which is always
sufficient since every step consumes at least one character. -/

/-- Value of a list of decimal digit characters (what `int(...)` returns on
the digit substrings captured by the pattern). -/
def digitsVal (ds : List Char) : Nat :=
  ds.foldl (fun acc c => 10 * acc + (c.toNat - '0'.toNat)) 0

/-- Match a literal: consume `lit` from the front of `cs` or fail. -/
def stripLit (lit cs : List Char) : Option (List Char) :=
  if lit.isPrefixOf cs then some (cs.drop lit.length) else none

/-- `\d+` with greedy maximal munch: one or more digits. -/
def parseDigits (cs : List Char) : Option (Nat × List Char) :=
  let ds := cs.takeWhile (fun c => c.isDigit)
  if ds.isEmpty then none
  else some (digitsVal ds, cs.dropWhile (fun c => c.isDigit))

/-- `(?:,(\d+))?`: optionally consume a comma followed by one or more
digits, returning the captured value when present. -/
def parseCommaDigits (cs : List Char) : Option Nat × List Char :=
  match cs with
  | c :: d :: rest =>
    if c = ',' ∧ d.isDigit = true then
      (some (digitsVal ((d :: rest).takeWhile (fun x => x.isDigit))),
        (d :: rest).dropWhile (fun x => x.isDigit))
    else (none, c :: d :: rest)
  | _ => (none, cs)

/-- Attempt the full pattern `@@ -\d+(?:,\d+)? \+(\d+)(?:,(\d+))? @@` at the
start of `cs`.  On success, return the `(start_line, end_line)` pair computed
by the loop body (`count` defaults to 1) and the remaining input. -/
def tryHunkHeader (cs : List Char) : Option ((Int × Int) × List Char) := do
  let cs1 ← stripLit ("@@ -".toList) cs
  let (_, cs2) ← parseDigits cs1
  let cs3 := (parseCommaDigits cs2).2
  let cs4 ← stripLit (" +".toList) cs3
  let (ns, cs5) ← parseDigits cs4
  let (ncOpt, cs6) := parseCommaDigits cs5
  let cs7 ← stripLit (" @@".toList) cs6
  pure (((ns : Int), (ns : Int) + ((ncOpt.getD 1 : Nat) : Int) - 1), cs7)

/-- `finditer` scan: try the pattern at each position, emitting matches and
continuing after each match. -/
def scanHunks : Nat → List Char → List (Int × Int)
  | 0, _ => []
  | fuel + 1, cs =>
    match tryHunkHeader cs with
    | some (r, rest) => r :: scanHunks fuel rest
    | none =>
      match cs with
      | [] => []
      | _ :: t => scanHunks fuel t

/-- `parse_diff_hunks(patch)`. -/
def parse_diff_hunks (patch : List Char) : List (Int × Int) :=
  scanHunks (patch.length + 1) patch

/-- Decimal digit character for `d < 10` (`'9'` for larger arguments, which
never occur). -/
def digitChar : Nat → Char
  | 0 => '0' | 1 => '1' | 2 => '2' | 3 => '3' | 4 => '4'
  | 5 => '5' | 6 => '6' | 7 => '7' | 8 => '8' | _ => '9'

/-- Big-endian decimal rendering of a natural number, used to state the
general header claim over arbitrary numeric fields. -/
def natDigits (n : Nat) : List Char :=
  if n < 10 then [digitChar n]
  else natDigits (n / 10) ++ [digitChar (n % 10)]
termination_by n
decreasing_by exact Nat.div_lt_self (by omega) (by omega)

/-- A hunk header `@@ -<os>,<oc> +<ns>,<nc> @@` with all four numeric
fields present. -/
def hunkHeaderFull (os oc ns nc : Nat) : List Char :=
  ("@@ -".toList) ++ (natDigits os ++ (',' :: (natDigits oc ++
    ((" +".toList) ++ (natDigits ns ++ (',' :: (natDigits nc ++ (" @@".toList))))))))

/-- A hunk header `@@ -<os> +<ns> @@` with both counts omitted. -/
def hunkHeaderNoCount (os ns : Nat) : List Char :=
  ("@@ -".toList) ++ (natDigits os ++
    ((" +".toList) ++ (natDigits ns ++ (" @@".toList))))

/-! ### `extract_changed_regions` (source lines 391-428)

```python
lines = file_text.split("\n")
total_lines = len(lines)
expanded_ranges = []
for start, end in line_ranges:
    exp_start = max(1, start - context_lines)
    exp_end = min(total_lines, end + context_lines)
    expanded_ranges.append((exp_start, exp_end))
expanded_ranges.sort()
merged = []
for start, end in expanded_ranges:
    if merged and start <= merged[-1][1] + 1:
        merged[-1] = (merged[-1][0], max(merged[-1][1], end))
    else:
        merged.append((start, end))
extracted_lines = []
original_line_numbers = []
for start, end in merged:
    if extracted_lines:
        extracted_lines.append("...")
        original_line_numbers.append(-1)
    for line_num in range(start, end + 1):
        if line_num <= total_lines:
            extracted_lines.append(f"L\x7bline_num\x7d: \x7blines[line_num - 1]\x7d")
            original_line_numbers.append(line_num)
return "\n".join(extracted_lines), original_line_numbers
```

The expand/sort/fold steps (the spec's RangeMerger) are `mergeRanges`;
the extraction loop is `extractLoop`.  Python's `list.sort()` on int pairs
is sorting by the lexicographic order `lexLe`, which is total and
antisymmetric, so the sorted permutation is unique and any sort gives the
same list; we use insertion sort.  The fold keeps `merged` reversed in the
accumulator (head = `merged[-1]`) and reverses at the end. -/

/-- Lexicographic order on integer pairs: Python's tuple comparison. -/
def lexLe (a b : Int × Int) : Prop :=
  a.1 < b.1 ∨ (a.1 = b.1 ∧ a.2 ≤ b.2)

instance : DecidableRel lexLe :=
  fun a b => inferInstanceAs (Decidable (a.1 < b.1 ∨ (a.1 = b.1 ∧ a.2 ≤ b.2)))

instance : IsTotal (Int × Int) lexLe :=
  ⟨by intro a b; unfold lexLe; omega⟩

instance : IsTrans (Int × Int) lexLe :=
  ⟨by intro a b c; unfold lexLe; omega⟩

/-- Expansion by `context` lines, clamped to `[1, total]`. -/
def expandClamp (context total : Int) (r : Int × Int) : Int × Int :=
  (max 1 (r.1 - context), min total (r.2 + context))

/-- The fold over sorted expanded ranges; the accumulator holds `merged`
reversed, so its head is Python's `merged[-1]`. -/
def mergeLoop : List (Int × Int) → List (Int × Int) → List (Int × Int)
  | acc, [] => acc
  | [], (s, e) :: rest => mergeLoop [(s, e)] rest
  | (ps, pe) :: acc, (s, e) :: rest =>
    if s ≤ pe + 1 then mergeLoop ((ps, max pe e) :: acc) rest
    else mergeLoop ((s, e) :: (ps, pe) :: acc) rest

/-- Expand, sort, and merge: lines 400-414 of the source (the spec's
`RangeMerger.merge`). -/
def mergeRanges (line_ranges : List (Int × Int)) (context total : Int) :
    List (Int × Int) :=
  (mergeLoop [] (List.insertionSort lexLe (line_ranges.map (expandClamp context total)))).reverse

/-- The `"..."` separator line inserted between regions. -/
def regionSep : List Char := ['.', '.', '.']

/-- `str(n)` for a Python int: decimal digits, `'-'`-prefixed when negative. -/
def intStr (n : Int) : List Char :=
  if n < 0 then '-' :: natDigits (-n).toNat else natDigits n.toNat

/-- `f"L{line_num}: {lines[line_num - 1]}"`. -/
def lineEntry (lines : List (List Char)) (n : Int) : List Char :=
  'L' :: (intStr n ++ (':' :: ' ' :: lines.getD (n - 1).toNat []))

/-- Python's `range(s, e + 1)` over ints. -/
def intRange (s e : Int) : List Int :=
  (List.range (e + 1 - s).toNat).map (fun k => s + Int.ofNat k)

/-- The extraction loop over merged ranges, carrying the accumulated
`extracted_lines` and `original_line_numbers`. -/
def extractLoop (lines : List (List Char)) (total : Int) :
    List (Int × Int) → List (List Char) × List Int → List (List Char) × List Int
  | [], acc => acc
  | (s, e) :: rest, (els, lm) =>
    let els1 := if els.isEmpty then els else els ++ [regionSep]
    let lm1 := if els.isEmpty then lm else lm ++ [-1]
    let emitted := (intRange s e).filter (fun n => n ≤ total)
    extractLoop lines total rest (els1 ++ emitted.map (lineEntry lines), lm1 ++ emitted)

/-- `extract_changed_regions(file_text, line_ranges, context_lines)`. -/
def extract_changed_regions (file_text : List Char) (line_ranges : List (Int × Int))
    (context_lines : Int) : List Char × List Int :=
  let lines := splitLines file_text
  let total : Int := lines.length
  let merged := mergeRanges line_ranges context_lines total
  let res := extractLoop lines total merged ([], [])
  (joinLines res.1, res.2)

/-- Join blocks with a single separator element between consecutive blocks
(used to state the separator claims). -/
def sepJoin {α : Type} (sep : α) : List (List α) → List α
  | [] => []
  | [b] => b
  | b :: b2 :: bs => b ++ sep :: sepJoin sep (b2 :: bs)

/-! ### The per-chunk merge loop of `main` (source lines 735-769)

```python
for chunk_idx, (chunk_text, start_line) in enumerate(chunks):
    chunk_json = call_openai(...)
    try:
        chunk_data = json.loads(chunk_json)
        if chunk_data.get("summary"):
            summary_parts.append(f"[Chunk \x7bchunk_idx + 1\x7d] \x7bchunk_data['summary']\x7d")
        for comment in chunk_data.get("comments", []):
            if not is_diff_mode and isinstance(comment.get("line"), int):
                comment["line"] = comment["line"] + start_line - 1
            all_comments.append(comment)
    except json.JSONDecodeError:
        all_comments.append({
            "line": start_line,
            "severity": "warning",
            "category": "system",
            "issue": f"Chunk \x7bchunk_idx + 1\x7d review parse error",
            "suggestion": chunk_json[:500],
        })
merged = {
    "summary": " ".join(summary_parts) if summary_parts else "Review completed in multiple chunks.",
    "comments": all_comments,
}
```

A comment object is modelled by the fields this loop and the placeholder
touch; `line` is `some n` exactly when the JSON value is an integer.  The
external call's outcome per chunk is either a parsed `(summary, comments)`
object or unparseable raw text. -/

structure ChunkComment where
  line : Option Int
  severity : String
  category : String
  issue : String
  suggestion : String
deriving DecidableEq, Repr

/-- Outcome of one chunk's analysis call: `json.loads` succeeded or raised. -/
inductive ChunkResult where
  | parsed (summary : String) (comments : List ChunkComment)
  | unparseable (raw : String)
deriving DecidableEq, Repr

/-- The placeholder comment appended when a chunk's response fails to parse. -/
def placeholderComment (chunk_idx : Nat) (start_line : Int) (raw : String) : ChunkComment :=
  { line := some start_line
    severity := "warning"
    category := "system"
    issue := "Chunk " ++ toString (chunk_idx + 1) ++ " review parse error"
    suggestion := String.mk (raw.data.take 500) }

/-- The per-comment line rewrite:
`if not is_diff_mode and isinstance(comment.get("line"), int):
  comment["line"] += start_line - 1`. -/
def adjustComment (is_diff_mode : Bool) (start_line : Int) (c : ChunkComment) : ChunkComment :=
  if !is_diff_mode && c.line.isSome then
    { c with line := c.line.map (fun n => n + start_line - 1) }
  else c

/-- The loop over chunks, carrying `chunk_idx`, `summary_parts` and
`all_comments`.  Each chunk is `(start_line, result)`. -/
def mergeChunkLoop (is_diff_mode : Bool) :
    List (Int × ChunkResult) → Nat → List String → List ChunkComment →
      List String × List ChunkComment
  | [], _, summary_parts, all_comments => (summary_parts, all_comments)
  | (start_line, ChunkResult.parsed summary comments) :: rest, idx, sp, ac =>
    let sp1 := if summary ≠ "" then
        sp ++ ["[Chunk " ++ toString (idx + 1) ++ "] " ++ summary]
      else sp
    mergeChunkLoop is_diff_mode rest (idx + 1) sp1
      (ac ++ comments.map (adjustComment is_diff_mode start_line))
  | (start_line, ChunkResult.unparseable raw) :: rest, idx, sp, ac =>
    mergeChunkLoop is_diff_mode rest (idx + 1) sp
      (ac ++ [placeholderComment idx start_line raw])

/-- The merged `(summary, comments)` result assembled by `main` from the
per-chunk outcomes. -/
def merge_chunk_results (is_diff_mode : Bool) (chunks : List (Int × ChunkResult)) :
    String × List ChunkComment :=
  let res := mergeChunkLoop is_diff_mode chunks 0 [] []
  (if res.1 ≠ [] then String.intercalate (" ") res.1
    else "Review completed in multiple chunks.", res.2)

/-- Comment contribution of a chunk list starting at chunk index `idx`:
the closed form of the loop's `all_comments` accumulation. -/
def commentsFrom (is_diff_mode : Bool) : Nat → List (Int × ChunkResult) → List ChunkComment
  | _, [] => []
  | idx, (start_line, ChunkResult.parsed _ comments) :: rest =>
    comments.map (adjustComment is_diff_mode start_line)
      ++ commentsFrom is_diff_mode (idx + 1) rest
  | idx, (start_line, ChunkResult.unparseable raw) :: rest =>
    placeholderComment idx start_line raw :: commentsFrom is_diff_mode (idx + 1) rest

theorem splitLines_ne_nil (s : List Char) : splitLines s ≠ [] := by
  induction s with
  | nil => simp [splitLines]
  | cons c rest ih =>
    simp only [splitLines]
    split
    · simp
    · cases h : splitLines rest with
      | nil => exact absurd h ih
      | cons l ls => simp

theorem joinLines_splitLines (s : List Char) : joinLines (splitLines s) = s := by
  induction s with
  | nil => simp [splitLines, joinLines]
  | cons c rest ih =>
    simp only [splitLines]
    split
    · rename_i hc
      subst hc
      cases h : splitLines rest with
      | nil => exact absurd h (splitLines_ne_nil rest)
      | cons l ls =>
        rw [h] at ih
        simp [joinLines, ih]
    · cases h : splitLines rest with
      | nil => exact absurd h (splitLines_ne_nil rest)
      | cons l ls =>
        rw [h] at ih
        cases ls with
        | nil => simp [joinLines] at ih ⊢; exact ih
        | cons l2 ls2 => simp [joinLines] at ih ⊢; exact ih

theorem splitLines_no_newline (s : List Char) :
    ∀ l ∈ splitLines s, '\n' ∉ l := by
  induction s with
  | nil => simp [splitLines]
  | cons c rest ih =>
    simp only [splitLines]
    split
    · intro l hl
      rcases List.mem_cons.mp hl with h | h
      · subst h; simp
      · exact ih l h
    · rename_i hc
      cases h : splitLines rest with
      | nil => exact absurd h (splitLines_ne_nil rest)
      | cons l0 ls =>
        intro l hl
        rw [h] at ih
        rcases List.mem_cons.mp hl with h1 | h1
        · subst h1
          intro hmem
          rcases List.mem_cons.mp hmem with h2 | h2
          · exact hc h2.symm
          · exact ih l0 (by simp) h2
        · exact ih l (by simp [h1])

theorem joinLines_cons (l : List Char) (ls : List (List Char)) (h : ls ≠ []) :
    joinLines (l :: ls) = l ++ '\n' :: joinLines ls := by
  cases ls with
  | nil => exact absurd rfl h
  | cons l2 ls2 => rfl

theorem splitLines_append_newline (l : List Char) (s : List Char)
    (hl : '\n' ∉ l) :
    splitLines (l ++ '\n' :: s) = l :: splitLines s := by
  induction l with
  | nil => simp [splitLines]
  | cons c l ih =>
    have hc : c ≠ '\n' := fun h => hl (by simp [h])
    have hl' : '\n' ∉ l := fun h => hl (by simp [h])
    simp only [List.cons_append, splitLines, List.append_eq, if_neg hc, ih hl']

theorem splitLines_joinLines (ls : List (List Char)) (h : ls ≠ [])
    (hnl : ∀ l ∈ ls, '\n' ∉ l) :
    splitLines (joinLines ls) = ls := by
  induction ls with
  | nil => exact absurd rfl h
  | cons l ls ih =>
    cases ls with
    | nil =>
      simp only [joinLines]
      have hl : '\n' ∉ l := hnl l (by simp)
      clear h hnl ih
      induction l with
      | nil => simp [splitLines]
      | cons c l ihl =>
        have hc : c ≠ '\n' := fun hh => hl (by simp [hh])
        have hl' : '\n' ∉ l := fun hh => hl (by simp [hh])
        simp only [splitLines, if_neg hc, ihl hl']
    | cons l2 ls2 =>
      rw [joinLines_cons l (l2 :: ls2) (by simp)]
      rw [splitLines_append_newline l _ (hnl l (by simp))]
      rw [ih (by simp) (fun x hx => hnl x (by simp [hx]))]

theorem joinLines_append (xs ys : List (List Char)) (hx : xs ≠ []) (hy : ys ≠ []) :
    joinLines (xs ++ ys) = joinLines xs ++ '\n' :: joinLines ys := by
  induction xs with
  | nil => exact absurd rfl hx
  | cons l xs ih =>
    cases xs with
    | nil =>
      cases ys with
      | nil => exact absurd rfl hy
      | cons y ys2 => simp [joinLines]
    | cons l2 xs2 =>
      have h1 : (l2 :: xs2) ++ ys ≠ [] := by simp
      rw [List.cons_append, joinLines_cons l _ (by simp), joinLines_cons l _ (by simp),
        ih (by simp)]
      simp

theorem joinLines_map_eq_join (parts : List (List (List Char)))
    (h : ∀ p ∈ parts, p ≠ []) :
    joinLines (parts.map joinLines) = joinLines parts.flatten := by
  induction parts with
  | nil => rfl
  | cons p parts ih =>
    cases parts with
    | nil => simp [joinLines]
    | cons p2 parts2 =>
      have hp : p ≠ [] := h p (by simp)
      have hrest : ∀ q ∈ p2 :: parts2, q ≠ [] := fun q hq => h q (by simp [hq])
      have hflat : (p2 :: parts2).flatten ≠ [] := by
        have hp2 : p2 ≠ [] := h p2 (by simp)
        cases p2 with
        | nil => exact absurd rfl hp2
        | cons a p2' => simp [List.flatten]
      have hx : joinLines ((p :: p2 :: parts2).flatten)
          = joinLines p ++ '\n' :: joinLines ((p2 :: parts2).flatten) := by
        rw [show ((p :: p2 :: parts2).flatten) = p ++ (p2 :: parts2).flatten from rfl]
        exact joinLines_append p _ hp hflat
      rw [List.map_cons, joinLines_cons _ _ (by simp), ih hrest, hx]

theorem joinLines_length (ls : List (List Char)) (h : ls ≠ []) :
    (joinLines ls).length + 1 = (ls.map (fun l => l.length + 1)).sum := by
  induction ls with
  | nil => exact absurd rfl h
  | cons l ls ih =>
    cases ls with
    | nil => simp [joinLines]
    | cons l2 ls2 =>
      rw [joinLines_cons l _ (by simp)]
      simp only [List.map_cons, List.sum_cons] at ih ⊢
      have := ih (by simp)
      simp only [List.length_append, List.length_cons]
      omega

/-! ### Structural lemmas about `chunkAux` -/

theorem chunkAux_flatten (m : Int) (lines : List (List Char)) :
    ∀ (i : Nat) (cur : List (List Char)) (sz st : Nat),
    ((chunkAux m lines i cur sz st).map Prod.fst).flatten = cur ++ lines := by
  induction lines with
  | nil =>
    intro i cur sz st
    by_cases h : cur = [] <;> simp [chunkAux, h]
  | cons line rest ih =>
    intro i cur sz st
    simp only [chunkAux]
    split
    · simp [ih]
    · simp [ih]

theorem chunkAux_chunk_ne_nil (m : Int) (lines : List (List Char)) :
    ∀ (i : Nat) (cur : List (List Char)) (sz st : Nat),
    ∀ c ∈ chunkAux m lines i cur sz st, c.1 ≠ [] := by
  induction lines with
  | nil =>
    intro i cur sz st c hc
    by_cases h : cur = []
    · simp [chunkAux, h] at hc
    · simp [chunkAux, h] at hc
      subst hc; exact h
  | cons line rest ih =>
    intro i cur sz st c hc
    simp only [chunkAux] at hc
    split at hc
    · rename_i hcond
      rcases List.mem_cons.mp hc with h | h
      · subst h; exact hcond.2
      · exact ih _ _ _ _ c h
    · exact ih _ _ _ _ c hc

theorem chunkAux_mem_line (m : Int) (lines : List (List Char)) :
    ∀ (i : Nat) (cur : List (List Char)) (sz st : Nat),
    ∀ c ∈ chunkAux m lines i cur sz st, ∀ l ∈ c.1, l ∈ cur ∨ l ∈ lines := by
  induction lines with
  | nil =>
    intro i cur sz st c hc l hl
    by_cases h : cur = []
    · simp [chunkAux, h] at hc
    · simp [chunkAux, h] at hc
      subst hc; exact Or.inl hl
  | cons line rest ih =>
    intro i cur sz st c hc l hl
    simp only [chunkAux] at hc
    split at hc
    · rcases List.mem_cons.mp hc with h | h
      · subst h; exact Or.inl hl
      · rcases ih _ _ _ _ c h l hl with h1 | h1
        · simp at h1; subst h1; exact Or.inr (by simp)
        · exact Or.inr (by simp [h1])
    · rcases ih _ _ _ _ c hc l hl with h1 | h1
      · rcases List.mem_append.mp h1 with h2 | h2
        · exact Or.inl h2
        · simp at h2; subst h2; exact Or.inr (by simp)
      · exact Or.inr (by simp [h1])

theorem chunkAux_head_start (m : Int) (lines : List (List Char)) :
    ∀ (i : Nat) (cur : List (List Char)) (sz st : Nat), cur ≠ [] →
    chunkAux m lines i cur sz st ≠ [] ∧
      ∀ b ∈ (chunkAux m lines i cur sz st).head?, b.2 = st := by
  induction lines with
  | nil =>
    intro i cur sz st hcur
    simp [chunkAux, hcur]
  | cons line rest ih =>
    intro i cur sz st hcur
    simp only [chunkAux]
    split
    · simp
    · exact ih (i + 1) (cur ++ [line]) _ st (by simp)

theorem chunkAux_chain (m : Int) (lines : List (List Char)) :
    ∀ (i : Nat) (cur : List (List Char)) (sz st : Nat), i + 1 = st + cur.length →
    List.Chain' (fun a b => b.2 = a.2 + a.1.length) (chunkAux m lines i cur sz st) := by
  induction lines with
  | nil =>
    intro i cur sz st _
    by_cases h : cur = [] <;> simp [chunkAux, h]
  | cons line rest ih =>
    intro i cur sz st hinv
    simp only [chunkAux]
    split
    · rw [List.chain'_cons']
      constructor
      · intro b hb
        have hh := (chunkAux_head_start m rest (i + 1) [line] _ (i + 1) (by simp)).2 b hb
        simpa [hh] using hinv
      · exact ih (i + 1) [line] _ (i + 1) (by simp)
    · refine ih (i + 1) (cur ++ [line]) _ st ?_
      simp only [List.length_append, List.length_cons, List.length_nil]
      omega

theorem chunkCharSize_pos (cur : List (List Char)) (h : cur ≠ []) :
    1 ≤ chunkCharSize cur := by
  cases cur with
  | nil => exact absurd rfl h
  | cons l ls => simp [chunkCharSize]; omega

theorem chunkCharSize_append (a b : List (List Char)) :
    chunkCharSize (a ++ b) = chunkCharSize a + chunkCharSize b := by
  simp [chunkCharSize]

theorem chunkAux_size_inv (m : Int) (lines : List (List Char)) :
    ∀ (i : Nat) (cur : List (List Char)) (sz st : Nat),
    sz = chunkCharSize cur →
    (2 ≤ cur.length → (sz : Int) ≤ m) →
    (∀ l ∈ cur, (l.length : Int) > m → cur = [l]) →
    ∀ c ∈ chunkAux m lines i cur sz st,
      (2 ≤ c.1.length → (chunkCharSize c.1 : Int) ≤ m) ∧
      (∀ l ∈ c.1, (l.length : Int) > m → c.1 = [l]) := by
  induction lines with
  | nil =>
    intro i cur sz st hsz hsmall halone c hc
    by_cases h : cur = []
    · simp [chunkAux, h] at hc
    · simp [chunkAux, h] at hc
      subst hc
      exact ⟨fun h2 => hsz ▸ hsmall h2, halone⟩
  | cons line rest ih =>
    intro i cur sz st hsz hsmall halone c hc
    simp only [chunkAux] at hc
    split at hc
    · rename_i hcond
      rcases List.mem_cons.mp hc with h | h
      · subst h
        exact ⟨fun h2 => hsz ▸ hsmall h2, halone⟩
      · refine ih (i + 1) [line] _ (i + 1) (by simp [chunkCharSize]) (by simp) ?_ c h
        intro l hl _
        simp at hl; simp [hl]
    · rename_i hcond
      have hnc : (sz : Int) + (line.length + 1 : Nat) ≤ m ∨ cur = [] := by
        by_cases hcur : cur = []
        · exact Or.inr hcur
        · left
          by_contra hgt
          exact hcond ⟨by push_cast; push_cast at hgt; omega, hcur⟩
      refine ih (i + 1) (cur ++ [line]) _ st ?_ ?_ ?_ c hc
      · rw [chunkCharSize_append, hsz]; simp [chunkCharSize]
      · intro _
        rcases hnc with h1 | h1
        · push_cast at h1 ⊢; omega
        · subst h1
          simp only [List.nil_append, List.length_cons, List.length_nil] at *
          omega
      · intro l hl hlen
        rcases hnc with h1 | h1
        · exfalso
          rcases List.mem_append.mp hl with h2 | h2
          · have hcur : cur ≠ [] := by
              intro hh; subst hh; simp at h2
            have := halone l h2 hlen
            rw [this] at hsz
            simp [chunkCharSize] at hsz
            push_cast at h1
            omega
          · simp at h2; subst h2
            have hcur : cur ≠ [] := by
              rcases List.mem_append.mp hl with h3 | h3
              · intro hh; subst hh; simp at h3
              · intro hh; subst hh
                push_cast at h1
                omega
            have hpos := chunkCharSize_pos cur hcur
            rw [hsz] at h1
            push_cast at h1
            omega
        · subst h1
          simp only [List.nil_append] at hl ⊢
          simp at hl; simp [hl]

theorem chain'_imp_mem {α : Type} {R S : α → α → Prop} :
    ∀ (l : List α), (∀ a ∈ l, ∀ b ∈ l, R a b → S a b) →
      List.Chain' R l → List.Chain' S l := by
  intro l
  induction l with
  | nil => intro _ _; exact List.chain'_nil
  | cons a l ih =>
    intro h hc
    rw [List.chain'_cons'] at hc ⊢
    constructor
    · intro b hb
      have hbmem : b ∈ a :: l := by
        cases l with
        | nil => simp at hb
        | cons x xs => simp at hb; subst hb; simp
      exact h a (by simp) b hbmem (hc.1 b hb)
    · exact ih (fun x hx y hy => h x (by simp [hx]) y (by simp [hy])) hc.2

/-! ### Claim C2: chunking round-trip -/

/-- C2 (confirmed): for every text and every
`max_chars ≥ max(1, longest line length)`, joining the chunk texts of
`chunk_file_by_lines` with `"\n"` reproduces the original text exactly, and
each chunk's `start_line` is the previous chunk's `start_line` plus the
previous chunk's number of lines.  (The bound on `max_chars` is the one the
claim states; the invariant in fact holds for any `max_chars`.) -/
theorem chunk_join_roundtrip (text : List Char) (m : Int)
    (h : ((max 1 (longestLineLength text) : Nat) : Int) ≤ m) :
    joinLines ((chunk_file_by_lines text m).map Prod.fst) = text ∧
    List.Chain' (fun a b => b.2 = a.2 + (splitLines a.1).length)
      (chunk_file_by_lines text m) := by
  clear h
  have hne : ∀ c ∈ chunkAux m (splitLines text) 0 [] 0 1, c.1 ≠ [] :=
    chunkAux_chunk_ne_nil m (splitLines text) 0 [] 0 1
  have hnl : ∀ c ∈ chunkAux m (splitLines text) 0 [] 0 1, ∀ l ∈ c.1, '\n' ∉ l := by
    intro c hc l hl
    rcases chunkAux_mem_line m (splitLines text) 0 [] 0 1 c hc l hl with h1 | h1
    · simp at h1
    · exact splitLines_no_newline text l h1
  constructor
  · rw [chunk_file_by_lines, List.map_map]
    have h1 : (Prod.fst ∘ fun c : List (List Char) × Nat => (joinLines c.1, c.2))
        = joinLines ∘ Prod.fst := rfl
    rw [h1, ← List.map_map]
    rw [joinLines_map_eq_join _ ?hne]
    case hne =>
      intro p hp
      rcases List.mem_map.mp hp with ⟨c, hc, hcp⟩
      subst hcp
      exact hne c hc
    rw [chunkAux_flatten]
    simp [joinLines_splitLines]
  · rw [chunk_file_by_lines, List.chain'_map]
    refine chain'_imp_mem _ ?_ (chunkAux_chain m (splitLines text) 0 [] 0 1 (by simp))
    intro a ha b hb hr
    simp only []
    rw [splitLines_joinLines a.1 (hne a ha) (hnl a ha)]
    exact hr

/-- C2 witness: a concrete instance of `chunk_join_roundtrip`
(`"ab\ncd\nef"`, `max_chars = 6`). -/
theorem chunk_join_roundtrip_witness :
    ((max 1 (longestLineLength ("ab\ncd\nef".toList)) : Nat) : Int) ≤ 6 ∧
    (joinLines ((chunk_file_by_lines ("ab\ncd\nef".toList) 6).map Prod.fst)
        = "ab\ncd\nef".toList ∧
      List.Chain' (fun a b => b.2 = a.2 + (splitLines a.1).length)
        (chunk_file_by_lines ("ab\ncd\nef".toList) 6)) :=
  ⟨by decide, chunk_join_roundtrip ("ab\ncd\nef".toList) 6 (by decide)⟩

/-! ### Claim C8: no line is ever split across chunks -/

/-- C8 (confirmed): for `max_chars > 0`, a chunk whose text is longer than
`max_chars` consists of a single line, and a line longer than `max_chars`
is always placed alone in its own chunk. -/
theorem chunk_no_line_split (text : List Char) (m : Int) (hm : 0 < m) :
    ∀ c ∈ chunk_file_by_lines text m,
      (((c.1.length : Nat) : Int) > m → (splitLines c.1).length = 1) ∧
      (∀ l ∈ splitLines c.1, ((l.length : Nat) : Int) > m → splitLines c.1 = [l]) := by
  clear hm
  intro c hc
  rw [chunk_file_by_lines] at hc
  rcases List.mem_map.mp hc with ⟨c0, hc0, hcc⟩
  subst hcc
  have hne : c0.1 ≠ [] := chunkAux_chunk_ne_nil m (splitLines text) 0 [] 0 1 c0 hc0
  have hnl : ∀ l ∈ c0.1, '\n' ∉ l := by
    intro l hl
    rcases chunkAux_mem_line m (splitLines text) 0 [] 0 1 c0 hc0 l hl with h1 | h1
    · simp at h1
    · exact splitLines_no_newline text l h1
  have hsplit : splitLines (joinLines c0.1) = c0.1 := splitLines_joinLines c0.1 hne hnl
  have hinv := chunkAux_size_inv m (splitLines text) 0 [] 0 1 (by simp [chunkCharSize])
    (by simp) (by simp) c0 hc0
  have hlen : (joinLines c0.1).length + 1 = chunkCharSize c0.1 := joinLines_length c0.1 hne
  simp only [hsplit]
  constructor
  · intro hbig
    by_contra hne1
    have h2 : 2 ≤ c0.1.length := by
      have h0 : c0.1.length ≠ 0 := fun hh => hne (List.length_eq_zero.mp hh)
      omega
    have := hinv.1 h2
    omega
  · exact hinv.2

/-- C8 witness: with `max_chars = 3`, the oversized line `"aaaa"` sits alone
in its chunk. -/
theorem chunk_no_line_split_witness :
    (0 : Int) < 3 ∧ (splitLines ("aaaa".toList)).length = 1 :=
  ⟨by decide,
    (chunk_no_line_split ("aaaa\nbb".toList) 3 (by decide)
      (("aaaa".toList), 1) (by decide)).1 (by decide)⟩

/-! ### Claim C9: `max_chars ≤ 0` is processed, not rejected -/

/-- C9 counterexample: a `max_chars` value of `0` is not rejected anywhere in
the code (no validation exists in `main` or `chunk_file_by_lines`); the
chunker simply processes it and returns one chunk per line. -/
theorem chunk_accepts_nonpositive_max_chars :
    chunk_file_by_lines ("a\nb".toList) 0 = [("a".toList, 1), ("b".toList, 2)] := by
  decide

theorem chunkAux_nonpos_singleton (m : Int) (hm : m ≤ 0) (lines : List (List Char)) :
    ∀ (i : Nat) (l0 : List Char) (sz0 st0 : Nat),
    chunkAux m lines i [l0] sz0 st0
      = ([l0], st0) :: (List.enumFrom i lines).map (fun p => ([p.2], p.1 + 1)) := by
  induction lines with
  | nil => intro i l0 sz0 st0; simp [chunkAux]
  | cons line rest ih =>
    intro i l0 sz0 st0
    rw [chunkAux, if_pos ⟨by push_cast; omega, by simp⟩]
    rw [ih (i + 1) line _ (i + 1)]
    rfl

/-- C9 amended: `max_chars ≤ 0` is not rejected at entry; `chunk_file_by_lines`
processes it, and since adding any line to a nonempty chunk then exceeds the
budget, every line of the text becomes its own chunk. -/
theorem chunk_nonpositive_max_chars_processed (text : List Char) (m : Int)
    (hm : m ≤ 0) :
    chunk_file_by_lines text m
      = (splitLines text).enum.map (fun p => (p.2, p.1 + 1)) := by
  rw [chunk_file_by_lines]
  rcases hsp : splitLines text with _ | ⟨l0, rest⟩
  · exact absurd hsp (splitLines_ne_nil text)
  · rw [chunkAux, if_neg (by simp)]
    simp only [List.nil_append, Nat.zero_add]
    rw [chunkAux_nonpos_singleton m hm rest 1 l0 _ 1]
    simp [List.enum, List.enumFrom, joinLines, List.map_map, Function.comp]

/-- C9 amended-claim witness at `max_chars = 0`. -/
theorem chunk_nonpositive_max_chars_processed_witness :
    (0 : Int) ≤ 0 ∧
    chunk_file_by_lines ("a\nb".toList) 0
      = (splitLines ("a\nb".toList)).enum.map (fun p => (p.2, p.1 + 1)) :=
  ⟨by decide, chunk_nonpositive_max_chars_processed ("a\nb".toList) 0 (by decide)⟩

/-! ### Lemmas about the hunk-header scanner -/

theorem digitChar_isDigit (d : Nat) : (digitChar d).isDigit = true := by
  rcases d with _|_|_|_|_|_|_|_|_|d <;> rfl

theorem digitChar_toNat (d : Nat) (h : d < 10) : (digitChar d).toNat = 48 + d := by
  interval_cases d <;> decide

theorem natDigits_ne_nil (n : Nat) : natDigits n ≠ [] := by
  rw [natDigits]
  split
  · simp
  · simp

theorem natDigits_all_digit (n : Nat) : ∀ c ∈ natDigits n, c.isDigit = true := by
  induction n using Nat.strong_induction_on with
  | _ n ih =>
    rw [natDigits]
    split
    · intro c hc
      simp at hc
      subst hc
      exact digitChar_isDigit n
    · rename_i h
      intro c hc
      rcases List.mem_append.mp hc with h1 | h1
      · exact ih (n / 10) (Nat.div_lt_self (by omega) (by omega)) c h1
      · simp at h1
        subst h1
        exact digitChar_isDigit (n % 10)

theorem digitsVal_append_digit (ds : List Char) (c : Char) :
    digitsVal (ds ++ [c]) = 10 * digitsVal ds + (c.toNat - '0'.toNat) := by
  simp [digitsVal, List.foldl_append]

theorem digitsVal_natDigits (n : Nat) : digitsVal (natDigits n) = n := by
  induction n using Nat.strong_induction_on with
  | _ n ih =>
    rw [natDigits]
    split
    · rename_i h
      simp [digitsVal, digitChar_toNat n h]
    · rename_i h
      rw [digitsVal_append_digit, ih (n / 10) (Nat.div_lt_self (by omega) (by omega)),
        digitChar_toNat (n % 10) (by omega)]
      have h0 : '0'.toNat = 48 := rfl
      omega

theorem takeWhile_append_all (p : Char → Bool) (ds rest : List Char)
    (h : ∀ c ∈ ds, p c = true) :
    (ds ++ rest).takeWhile p = ds ++ rest.takeWhile p := by
  induction ds with
  | nil => simp
  | cons c t ih =>
    simp [List.takeWhile_cons, h c (by simp), ih (fun x hx => h x (by simp [hx]))]

theorem dropWhile_append_all (p : Char → Bool) (ds rest : List Char)
    (h : ∀ c ∈ ds, p c = true) :
    (ds ++ rest).dropWhile p = rest.dropWhile p := by
  induction ds with
  | nil => simp
  | cons c t ih =>
    simp [List.dropWhile_cons, h c (by simp), ih (fun x hx => h x (by simp [hx]))]

theorem dropWhile_eq_self_of_takeWhile_nil (p : Char → Bool) (l : List Char)
    (h : l.takeWhile p = []) : l.dropWhile p = l := by
  cases l with
  | nil => rfl
  | cons c t =>
    have hp : p c = false := by
      cases hpc : p c
      · rfl
      · rw [List.takeWhile_cons, hpc] at h
        simp at h
    simp [List.dropWhile_cons, hp]

theorem takeWhile_digit_cons_false (c : Char) (t : List Char) (h : c.isDigit = false) :
    (c :: t).takeWhile (fun x => x.isDigit) = [] := by
  simp [List.takeWhile_cons, h]

theorem stripLit_append (lit rest : List Char) : stripLit lit (lit ++ rest) = some rest := by
  have h : lit.isPrefixOf (lit ++ rest) = true := by
    rw [List.isPrefixOf_iff_prefix]
    exact List.prefix_append lit rest
  rw [stripLit, if_pos h, List.drop_left]

theorem parseDigits_natDigits (n : Nat) (rest : List Char)
    (h : rest.takeWhile (fun c => c.isDigit) = []) :
    parseDigits (natDigits n ++ rest) = some (n, rest) := by
  simp only [parseDigits]
  rw [takeWhile_append_all _ _ _ (natDigits_all_digit n), h, List.append_nil,
    dropWhile_append_all _ _ _ (natDigits_all_digit n),
    dropWhile_eq_self_of_takeWhile_nil _ _ h]
  rw [if_neg (by simp [natDigits_ne_nil n]), digitsVal_natDigits]

theorem parseCommaDigits_comma (k : Nat) (rest : List Char)
    (h : rest.takeWhile (fun c => c.isDigit) = []) :
    parseCommaDigits (',' :: (natDigits k ++ rest)) = (some k, rest) := by
  obtain ⟨d, ds, hds⟩ : ∃ d ds, natDigits k = d :: ds := by
    cases hnd : natDigits k with
    | nil => exact absurd hnd (natDigits_ne_nil k)
    | cons d ds => exact ⟨d, ds, rfl⟩
  have hd : d.isDigit = true := natDigits_all_digit k d (by rw [hds]; simp)
  rw [hds, List.cons_append, parseCommaDigits, if_pos ⟨rfl, hd⟩]
  rw [show d :: (ds ++ rest) = (d :: ds) ++ rest from rfl, ← hds]
  rw [takeWhile_append_all _ _ _ (natDigits_all_digit k), h, List.append_nil,
    dropWhile_append_all _ _ _ (natDigits_all_digit k),
    dropWhile_eq_self_of_takeWhile_nil _ _ h, digitsVal_natDigits]

theorem parseCommaDigits_cons_ne (c d : Char) (t : List Char)
    (h : ¬(c = ',' ∧ d.isDigit = true)) :
    parseCommaDigits (c :: d :: t) = (none, c :: d :: t) := by
  rw [parseCommaDigits, if_neg h]

theorem parseCommaDigits_space (d : Char) (t : List Char) :
    parseCommaDigits (' ' :: d :: t) = (none, ' ' :: d :: t) :=
  parseCommaDigits_cons_ne ' ' d t (fun hh => absurd hh.1 (by decide))

theorem scanHunks_nil (fuel : Nat) : scanHunks fuel [] = [] := by
  cases fuel with
  | zero => rfl
  | succ f => rfl

theorem scanHunks_succ (fuel : Nat) (cs : List Char) :
    scanHunks (fuel + 1) cs
      = match tryHunkHeader cs with
        | some (r, rest) => r :: scanHunks fuel rest
        | none =>
          match cs with
          | [] => []
          | _ :: t => scanHunks fuel t := rfl

theorem takeWhile_digit_comma (t : List Char) :
    (',' :: t).takeWhile (fun x => x.isDigit) = [] :=
  takeWhile_digit_cons_false ',' t (by decide)

theorem takeWhile_digit_space (t : List Char) :
    (' ' :: t).takeWhile (fun x => x.isDigit) = [] :=
  takeWhile_digit_cons_false ' ' t (by decide)

theorem stripLit_marker_open (t : List Char) :
    stripLit (['@', '@', ' ', '-']) ('@' :: '@' :: ' ' :: '-' :: t) = some t :=
  stripLit_append (['@', '@', ' ', '-']) t

theorem stripLit_marker_plus (t : List Char) :
    stripLit ([' ', '+']) (' ' :: '+' :: t) = some t :=
  stripLit_append ([' ', '+']) t

theorem stripLit_marker_close (t : List Char) :
    stripLit ([' ', '@', '@']) (' ' :: '@' :: '@' :: t) = some t :=
  stripLit_append ([' ', '@', '@']) t

theorem tryHunkHeader_full (os oc ns nc : Nat) (s : List Char) :
    tryHunkHeader ((hunkHeaderFull os oc ns nc) ++ s)
      = some (((ns : Int), (ns : Int) + (nc : Int) - 1), s) := by
  have hshape : hunkHeaderFull os oc ns nc ++ s
      = ("@@ -".toList) ++ (natDigits os ++ (',' :: (natDigits oc ++
          ((" +".toList) ++ (natDigits ns ++ (',' :: (natDigits nc ++
            ((" @@".toList) ++ s)))))))) := by
    simp [hunkHeaderFull]
  rw [hshape]
  simp [tryHunkHeader, stripLit_marker_open, stripLit_marker_plus, stripLit_marker_close,
    parseDigits_natDigits, parseCommaDigits_comma,
    takeWhile_digit_comma, takeWhile_digit_space]

theorem tryHunkHeader_nocount (os ns : Nat) (s : List Char) :
    tryHunkHeader ((hunkHeaderNoCount os ns) ++ s)
      = some (((ns : Int), (ns : Int) + 1 - 1), s) := by
  have hshape : hunkHeaderNoCount os ns ++ s
      = ("@@ -".toList) ++ (natDigits os ++ (' ' :: '+' :: (natDigits ns ++
          (' ' :: '@' :: '@' :: s)))) := by
    simp [hunkHeaderNoCount]
  rw [hshape]
  simp [tryHunkHeader, stripLit_marker_open, stripLit_marker_plus, stripLit_marker_close,
    parseDigits_natDigits, parseCommaDigits_space, takeWhile_digit_space]

/-! ### Claim C5: hunk-header parsing -/

/-- C5 (confirmed): `parse_diff_hunks` emits one `(start, end)` range per
hunk header, with `start = new_start`, `end = new_start + new_count - 1`,
and `new_count` defaulting to 1 when omitted.  `@@ -10,5 +12,8 @@` parses to
`(12, 19)`; the empty patch yields `[]`; non-header and malformed text is
skipped without error; several headers each yield exactly one range. -/
theorem parse_diff_hunks_header_semantics :
    (∀ os oc ns nc : Nat,
      parse_diff_hunks (hunkHeaderFull os oc ns nc)
        = [((ns : Int), (ns : Int) + (nc : Int) - 1)]) ∧
    (∀ os ns : Nat,
      parse_diff_hunks (hunkHeaderNoCount os ns)
        = [((ns : Int), (ns : Int))]) ∧
    parse_diff_hunks ("@@ -10,5 +12,8 @@".toList) = [(12, 19)] ∧
    parse_diff_hunks [] = [] ∧
    parse_diff_hunks ("context\n@@ -10,5 +x @@\n@@ -1 +2,3 @@\nmore".toList)
      = [(2, 4)] ∧
    parse_diff_hunks ("@@ -1 +2 @@\n@@ -5,0 +7,2 @@".toList) = [(2, 2), (7, 8)] := by
  refine ⟨?_, ?_, by decide, by decide, by decide, by decide⟩
  · intro os oc ns nc
    have h := tryHunkHeader_full os oc ns nc []
    rw [List.append_nil] at h
    rw [parse_diff_hunks, scanHunks_succ, h]
    simp [scanHunks_nil]
  · intro os ns
    have h := tryHunkHeader_nocount os ns []
    rw [List.append_nil] at h
    rw [parse_diff_hunks, scanHunks_succ, h]
    simp [scanHunks_nil]

/-! ### Claim C6: lower bound on emitted start lines -/

/-- C6 counterexample: the header `@@ -1,3 +0,0 @@` (a hunk that empties the
new file, as produced by real unified diffs) parses to the range `(0, -1)`,
whose start is `0 < 1`, refuting `start ≥ 1`. -/
theorem parse_diff_hunks_start_zero :
    parse_diff_hunks ("@@ -1,3 +0,0 @@".toList) = [(0, -1)] := by
  decide

theorem tryHunkHeader_start_nonneg (cs : List Char) (r : Int × Int) (rest : List Char)
    (h : tryHunkHeader cs = some (r, rest)) : 0 ≤ r.1 := by
  simp only [tryHunkHeader, bind, Option.bind_eq_some, Option.pure_def,
    Option.some.injEq] at h
  obtain ⟨cs1, h1, h⟩ := h
  obtain ⟨⟨n0, cs2⟩, h2, h⟩ := h
  obtain ⟨cs4, h4, h⟩ := h
  obtain ⟨⟨ns, cs5⟩, h5, h⟩ := h
  obtain ⟨cs7, h7, h⟩ := h
  injection h with h8 h9
  subst h8
  simpa using Int.natCast_nonneg ns

theorem scanHunks_start_nonneg : ∀ (fuel : Nat) (cs : List Char),
    ∀ r ∈ scanHunks fuel cs, 0 ≤ r.1 := by
  intro fuel
  induction fuel with
  | zero => intro cs r hr; simp [scanHunks] at hr
  | succ fuel ih =>
    intro cs r hr
    rw [scanHunks_succ] at hr
    cases htry : tryHunkHeader cs with
    | some val =>
      rcases val with ⟨r0, rest⟩
      rw [htry] at hr
      simp only [List.mem_cons] at hr
      rcases hr with h | h
      · subst h
        exact tryHunkHeader_start_nonneg cs r rest htry
      · exact ih rest r h
    | none =>
      rw [htry] at hr
      cases cs with
      | nil => simp at hr
      | cons c t => exact ih t r hr

/-- C6 amended: every range returned by `parse_diff_hunks` has `start ≥ 0`
(the start is parsed from a digit run, so it is a natural number; it is `0`
exactly for `+0[,k]` headers, which arise when the new file side is empty). -/
theorem parse_diff_hunks_start_nonneg (patch : List Char) :
    ∀ r ∈ parse_diff_hunks patch, 0 ≤ r.1 :=
  scanHunks_start_nonneg (patch.length + 1) patch

/-- C6 amended-claim witness: the range parsed from `@@ -10,5 +12,8 @@`. -/
theorem parse_diff_hunks_start_nonneg_witness : (0 : Int) ≤ 12 :=
  parse_diff_hunks_start_nonneg ("@@ -10,5 +12,8 @@".toList) (12, 19) (by decide)

/-! ### Lemmas about `mergeRanges` -/

theorem lexLe_fst_le (a b : Int × Int) (h : lexLe a b) : a.1 ≤ b.1 := by
  unfold lexLe at h
  omega

theorem mergeLoop_bounds (N : Int) :
    ∀ (l acc : List (Int × Int)),
    (∀ r ∈ acc, 1 ≤ r.1 ∧ r.2 ≤ N) → (∀ r ∈ l, 1 ≤ r.1 ∧ r.2 ≤ N) →
    ∀ r ∈ mergeLoop acc l, 1 ≤ r.1 ∧ r.2 ≤ N := by
  intro l
  induction l with
  | nil =>
    intro acc hacc _ r hr
    rw [mergeLoop] at hr
    exact hacc r hr
  | cons x rest ih =>
    rcases x with ⟨s, e⟩
    intro acc hacc hl r hr
    have hse : 1 ≤ s ∧ e ≤ N := hl (s, e) (by simp)
    cases acc with
    | nil =>
      rw [mergeLoop] at hr
      refine ih [(s, e)] ?_ (fun x hx => hl x (by simp [hx])) r hr
      intro x hx
      simp at hx
      simp [hx, hse.1, hse.2]
    | cons p acc' =>
      rcases p with ⟨ps, pe⟩
      have hp : 1 ≤ ps ∧ pe ≤ N := hacc (ps, pe) (by simp)
      rw [mergeLoop] at hr
      split at hr
      · refine ih _ ?_ (fun x hx => hl x (by simp [hx])) r hr
        intro x hx
        rcases List.mem_cons.mp hx with h1 | h1
        · subst h1
          constructor
          · exact hp.1
          · simp only [Prod.snd]
            exact max_le hp.2 hse.2
        · exact hacc x (by simp [h1])
      · refine ih _ ?_ (fun x hx => hl x (by simp [hx])) r hr
        intro x hx
        rcases List.mem_cons.mp hx with h1 | h1
        · subst h1; exact hse
        · exact hacc x h1

theorem mergeLoop_chain :
    ∀ (l acc : List (Int × Int)),
    List.Pairwise lexLe l →
    List.Chain' (fun a b => b.1 ≤ a.1 ∧ b.2 + 2 ≤ a.1) acc →
    (∀ x ∈ l, ∀ y ∈ acc.head?, y.1 ≤ x.1) →
    List.Chain' (fun a b => b.1 ≤ a.1 ∧ b.2 + 2 ≤ a.1) (mergeLoop acc l) := by
  intro l
  induction l with
  | nil =>
    intro acc _ hacc _
    simpa [mergeLoop] using hacc
  | cons x rest ih =>
    rcases x with ⟨s, e⟩
    intro acc hsort hacc hhead
    have hsort' : List.Pairwise lexLe rest := List.Pairwise.of_cons hsort
    have hrest_ge : ∀ x ∈ rest, s ≤ x.1 := by
      intro x hx
      exact lexLe_fst_le _ _ ((List.pairwise_cons.mp hsort).1 x hx)
    cases acc with
    | nil =>
      rw [mergeLoop]
      refine ih [(s, e)] hsort' (by simp) ?_
      intro x hx y hy
      simp at hy
      subst hy
      exact hrest_ge x hx
    | cons p acc' =>
      rcases p with ⟨ps, pe⟩
      have hps : ps ≤ s := hhead (s, e) (by simp) (ps, pe) (by simp)
      rw [mergeLoop]
      split
      · rename_i hmerge
        refine ih _ hsort' ?_ ?_
        · rw [List.chain'_cons'] at hacc ⊢
          exact ⟨fun y hy => hacc.1 y hy, hacc.2⟩
        · intro x hx y hy
          simp at hy
          subst hy
          exact le_trans hps (hrest_ge x hx)
      · rename_i hnomerge
        refine ih _ hsort' ?_ ?_
        · rw [List.chain'_cons']
          constructor
          · intro y hy
            simp at hy
            subst hy
            exact ⟨hps, by omega⟩
          · exact hacc
        · intro x hx y hy
          simp at hy
          subst hy
          exact hrest_ge x hx

theorem mergeLoop_nondeg :
    ∀ (l acc : List (Int × Int)),
    (∀ r ∈ acc, r.1 ≤ r.2) → (∀ r ∈ l, r.1 ≤ r.2) →
    ∀ r ∈ mergeLoop acc l, r.1 ≤ r.2 := by
  intro l
  induction l with
  | nil =>
    intro acc hacc _ r hr
    rw [mergeLoop] at hr
    exact hacc r hr
  | cons x rest ih =>
    rcases x with ⟨s, e⟩
    intro acc hacc hl r hr
    have hse : s ≤ e := hl (s, e) (by simp)
    cases acc with
    | nil =>
      rw [mergeLoop] at hr
      refine ih [(s, e)] ?_ (fun x hx => hl x (by simp [hx])) r hr
      intro x hx
      simp at hx
      simp [hx, hse]
    | cons p acc' =>
      rcases p with ⟨ps, pe⟩
      have hp : ps ≤ pe := hacc (ps, pe) (by simp)
      rw [mergeLoop] at hr
      split at hr
      · refine ih _ ?_ (fun x hx => hl x (by simp [hx])) r hr
        intro x hx
        rcases List.mem_cons.mp hx with h1 | h1
        · subst h1
          simp only [Prod.fst, Prod.snd]
          exact le_trans hp (le_max_left pe e)
        · exact hacc x (by simp [h1])
      · refine ih _ ?_ (fun x hx => hl x (by simp [hx])) r hr
        intro x hx
        rcases List.mem_cons.mp hx with h1 | h1
        · subst h1; exact hse
        · exact hacc x h1

theorem mergeRanges_mem_bounds (ranges : List (Int × Int)) (context total : Int) :
    ∀ r ∈ mergeRanges ranges context total, 1 ≤ r.1 ∧ r.2 ≤ total := by
  intro r hr
  rw [mergeRanges, List.mem_reverse] at hr
  refine mergeLoop_bounds total _ [] (by simp) ?_ r hr
  intro x hx
  have hx' : x ∈ ranges.map (expandClamp context total) :=
    (List.perm_insertionSort lexLe _).mem_iff.mp hx
  rcases List.mem_map.mp hx' with ⟨y, _, hy⟩
  subst hy
  unfold expandClamp
  constructor
  · exact le_max_left 1 _
  · exact min_le_left total _

/-! ### Claim C3: the merged range sequence -/

/-- C3 counterexample: with `doc_line_count = 5` and `context = 0`, the input
range `(10, 10)` lies entirely outside `[1, 5]`, yet the merged sequence is
`[(10, 5)]` — the range is emitted (as a degenerate `start > end` pair whose
start exceeds the document length), not dropped. -/
theorem mergeRanges_emits_out_of_range :
    mergeRanges [((10 : Int), (10 : Int))] 0 5 = [(10, 5)] ∧ ¬((10 : Int) ≤ 5) := by
  constructor
  · decide
  · decide

/-- C3 amended: the merged sequence produced by the expand/sort/fold step
has non-decreasing starts, consecutive ranges separated by a gap of at least
one line (`prev.end + 2 ≤ next.start`), and every output range satisfies
`start ≥ 1` and `end ≤ doc_line_count`; but an input range lying entirely
outside `[1, doc_line_count]` is emitted as a degenerate range
(`start > end`, contributing no lines downstream) rather than dropped, and
such a degenerate range can have `start > doc_line_count` or `end < 1`. -/
theorem mergeRanges_sorted_bounded_gap (ranges : List (Int × Int)) (context total : Int) :
    (∀ r ∈ mergeRanges ranges context total, 1 ≤ r.1 ∧ r.2 ≤ total) ∧
    List.Chain' (fun a b => a.1 ≤ b.1 ∧ a.2 + 2 ≤ b.1)
      (mergeRanges ranges context total) := by
  constructor
  · exact mergeRanges_mem_bounds ranges context total
  · rw [mergeRanges, List.chain'_reverse]
    refine mergeLoop_chain _ [] (List.sorted_insertionSort lexLe _) (by simp) (by simp)

/-- C3 amended-claim witness: `(1, 3)` is in the merge of `(2,2),(10,10)`
with context 1 over a 20-line document, and lies within bounds. -/
theorem mergeRanges_sorted_bounded_gap_witness :
    1 ≤ (1 : Int) ∧ (3 : Int) ≤ 20 :=
  (mergeRanges_sorted_bounded_gap [(2, 2), (10, 10)] 1 20).1 (1, 3) (by decide)

/-! ### Lemmas about the reconciliation loop -/

theorem mergeChunkLoop_comments (d : Bool) :
    ∀ (chunks : List (Int × ChunkResult)) (idx : Nat) (sp : List String)
      (ac : List ChunkComment),
    (mergeChunkLoop d chunks idx sp ac).2 = ac ++ commentsFrom d idx chunks := by
  intro chunks
  induction chunks with
  | nil => intro idx sp ac; simp [mergeChunkLoop, commentsFrom]
  | cons x rest ih =>
    rcases x with ⟨s, res⟩
    intro idx sp ac
    cases res with
    | parsed summary comments =>
      rw [mergeChunkLoop]
      simp only [ih, commentsFrom, List.append_assoc]
    | unparseable raw =>
      rw [mergeChunkLoop]
      simp only [ih, commentsFrom, List.append_assoc, List.singleton_append]

theorem commentsFrom_append (d : Bool) :
    ∀ (l1 l2 : List (Int × ChunkResult)) (idx : Nat),
    commentsFrom d idx (l1 ++ l2)
      = commentsFrom d idx l1 ++ commentsFrom d (idx + l1.length) l2 := by
  intro l1
  induction l1 with
  | nil => intro l2 idx; simp [commentsFrom]
  | cons x rest ih =>
    rcases x with ⟨s, res⟩
    intro l2 idx
    cases res with
    | parsed summary comments =>
      simp only [List.cons_append, commentsFrom, List.append_eq, List.length_cons]
      rw [ih]
      rw [show idx + 1 + rest.length = idx + (rest.length + 1) from by omega]
      simp [List.append_assoc]
    | unparseable raw =>
      simp only [List.cons_append, commentsFrom, List.append_eq, List.length_cons]
      rw [ih]
      rw [show idx + 1 + rest.length = idx + (rest.length + 1) from by omega]

theorem adjustComment_eq (d : Bool) (s : Int) (c : ChunkComment) :
    adjustComment d s c
      = if d then c else { c with line := c.line.map (fun n => n + s - 1) } := by
  cases d with
  | true => simp [adjustComment]
  | false =>
    cases hc : c.line with
    | none =>
      simp only [adjustComment, hc, Option.isSome_none, Bool.not_false, Bool.and_false,
        if_neg, Bool.false_eq_true, not_false_iff, if_false, Option.map_none']
      rw [← hc]
    | some n => simp [adjustComment, hc]

/-! ### Claim C1: coordinate rewrite during reconciliation -/

/-- C1 (confirmed): wherever a parsed chunk sits in the chunk sequence, its
comments are appended with each integer `line` value rewritten to
`line + start_line - 1` under size-based chunking (`is_diff_mode = false`),
and passed through unchanged under diff-region extraction
(`is_diff_mode = true`).  Non-integer `line` values (`none`) are never
touched. -/
theorem reconcile_line_adjustment (d : Bool) (pre post : List (Int × ChunkResult))
    (s : Int) (summary : String) (cs : List ChunkComment) :
    (merge_chunk_results d (pre ++ (s, ChunkResult.parsed summary cs) :: post)).2
      = commentsFrom d 0 pre
        ++ (cs.map (fun c => if d then c
              else { c with line := c.line.map (fun n => n + s - 1) }))
        ++ commentsFrom d (pre.length + 1) post := by
  have h1 : (merge_chunk_results d (pre ++ (s, ChunkResult.parsed summary cs) :: post)).2
      = commentsFrom d 0 (pre ++ (s, ChunkResult.parsed summary cs) :: post) := by
    rw [merge_chunk_results]
    exact mergeChunkLoop_comments d _ 0 [] []
  have hmap : List.map (adjustComment d s) cs
      = cs.map (fun c => if d then c
          else { c with line := c.line.map (fun n => n + s - 1) }) :=
    List.map_congr_left (fun c _ => adjustComment_eq d s c)
  rw [h1, commentsFrom_append]
  simp only [commentsFrom, Nat.zero_add, List.append_assoc]
  rw [hmap]

/-! ### Claim C4: placeholder for an unparseable chunk -/

/-- C4 counterexample: the placeholder's `issue` field is
`"Chunk <chunk_idx + 1> review parse error"` (here `"Chunk 1 review parse
error"`), not the literal `"chunk review parse error"` the claim states. -/
theorem reconcile_placeholder_issue_label :
    (merge_chunk_results false [((7 : Int), ChunkResult.unparseable ("xyz"))]).2
      = [{ line := some 7, severity := "warning", category := "system",
           issue := "Chunk 1 review parse error", suggestion := "xyz" }] ∧
    ("Chunk 1 review parse error" : String) ≠ "chunk review parse error" := by
  constructor
  · decide
  · decide

/-- C4 amended: when one chunk's response is unparseable, reconciliation
still succeeds and exactly one placeholder comment is synthesized for that
chunk, with `severity = "warning"`, `category = "system"`,
`line = start_line`, `suggestion` the first 500 characters of the raw
response, and `issue = "Chunk <chunk_idx + 1> review parse error"` (the
1-based chunk index is interpolated into the label). -/
theorem reconcile_unparseable_placeholder (d : Bool) (pre post : List (Int × ChunkResult))
    (s : Int) (raw : String) :
    (merge_chunk_results d (pre ++ (s, ChunkResult.unparseable raw) :: post)).2
      = commentsFrom d 0 pre
        ++ ({ line := some s, severity := "warning", category := "system",
              issue := "Chunk " ++ toString (pre.length + 1) ++ " review parse error",
              suggestion := String.mk (raw.data.take 500) } : ChunkComment)
          :: commentsFrom d (pre.length + 1) post := by
  have h1 : (merge_chunk_results d (pre ++ (s, ChunkResult.unparseable raw) :: post)).2
      = commentsFrom d 0 (pre ++ (s, ChunkResult.unparseable raw) :: post) := by
    rw [merge_chunk_results]
    exact mergeChunkLoop_comments d _ 0 [] []
  rw [h1, commentsFrom_append]
  simp only [commentsFrom, Nat.zero_add]
  rfl

/-! ### Lemmas about the extraction loop -/

theorem intRange_mem (s e n : Int) (h : n ∈ intRange s e) : s ≤ n ∧ n ≤ e := by
  unfold intRange at h
  rcases List.mem_map.mp h with ⟨k, hk, hkn⟩
  rw [List.mem_range] at hk
  subst hkn
  simp only [Int.ofNat_eq_coe]
  omega

theorem intRange_ne_nil (s e : Int) (h : s ≤ e) : intRange s e ≠ [] := by
  simp only [intRange, ne_eq, List.map_eq_nil_iff, List.range_eq_nil]
  omega

theorem forall₂_map_self {α β : Type} (P : β → α → Prop) (f : α → β) :
    ∀ (l : List α), (∀ a ∈ l, P (f a) a) → List.Forall₂ P (l.map f) l := by
  intro l
  induction l with
  | nil => intro _; simp
  | cons a t ih =>
    intro h
    simp only [List.map_cons]
    exact List.Forall₂.cons (h a (by simp)) (ih (fun x hx => h x (by simp [hx])))

theorem forall₂_mem_right {α β : Type} {P : β → α → Prop} :
    ∀ {l1 : List β} {l2 : List α}, List.Forall₂ P l1 l2 →
    ∀ b ∈ l2, ∃ a ∈ l1, P a b := by
  intro l1 l2 h
  induction h with
  | nil => simp
  | cons hpq _ ih =>
    intro b hb
    rcases List.mem_cons.mp hb with h1 | h1
    · subst h1
      exact ⟨_, by simp, hpq⟩
    · rcases ih b h1 with ⟨a, ha, hpa⟩
      exact ⟨a, by simp [ha], hpa⟩

theorem forall₂_mem_left {α β : Type} {P : β → α → Prop} :
    ∀ {l1 : List β} {l2 : List α}, List.Forall₂ P l1 l2 →
    ∀ a ∈ l1, ∃ b ∈ l2, P a b := by
  intro l1 l2 h
  induction h with
  | nil => simp
  | cons hpq _ ih =>
    intro a ha
    rcases List.mem_cons.mp ha with h1 | h1
    · subst h1
      exact ⟨_, by simp, hpq⟩
    · rcases ih a h1 with ⟨b, hb, hpb⟩
      exact ⟨b, by simp [hb], hpb⟩

theorem forall₂_get? {α β : Type} {P : β → α → Prop} :
    ∀ {l1 : List β} {l2 : List α}, List.Forall₂ P l1 l2 →
    ∀ (i : Nat) (b : α), l2.get? i = some b → ∃ a, l1.get? i = some a ∧ P a b := by
  intro l1 l2 h
  induction h with
  | nil => intro i b hb; simp at hb
  | cons hpq _ ih =>
    intro i b hb
    cases i with
    | zero =>
      simp only [List.get?_cons_zero, Option.some.injEq] at hb ⊢
      subst hb
      exact ⟨_, rfl, hpq⟩
    | succ i =>
      simp only [List.get?_cons_succ] at hb ⊢
      exact ih i b hb

theorem natDigits_no_newline (n : Nat) : '\n' ∉ natDigits n := fun h =>
  absurd (natDigits_all_digit n '\n' h) (by decide)

theorem intStr_no_newline (n : Int) : '\n' ∉ intStr n := by
  unfold intStr
  split
  · intro h
    rcases List.mem_cons.mp h with h1 | h1
    · exact absurd h1 (by decide)
    · exact natDigits_no_newline _ h1
  · exact natDigits_no_newline _

theorem lineEntry_no_newline (lines : List (List Char))
    (hlines : ∀ l ∈ lines, '\n' ∉ l) (n : Int) : '\n' ∉ lineEntry lines n := by
  unfold lineEntry
  intro h
  rcases List.mem_cons.mp h with h1 | h1
  · exact absurd h1 (by decide)
  rcases List.mem_append.mp h1 with h2 | h2
  · exact intStr_no_newline n h2
  rcases List.mem_cons.mp h2 with h3 | h3
  · exact absurd h3 (by decide)
  rcases List.mem_cons.mp h3 with h4 | h4
  · exact absurd h4 (by decide)
  · cases hk : lines.get? (n - 1).toNat with
    | none =>
      rw [List.getD_eq_get?, hk] at h4
      simp at h4
    | some l0 =>
      rw [List.getD_eq_get?, hk] at h4
      exact hlines l0 (List.get?_mem hk) h4

theorem extractLoop_forall₂ (lines : List (List Char)) (total : Int) :
    ∀ (ms : List (Int × Int)) (els : List (List Char)) (lm : List Int),
    (∀ r ∈ ms, 1 ≤ r.1) →
    List.Forall₂ (fun l n => (n = -1 ∧ l = regionSep)
        ∨ (1 ≤ n ∧ n ≤ total ∧ l = lineEntry lines n)) els lm →
    List.Forall₂ (fun l n => (n = -1 ∧ l = regionSep)
        ∨ (1 ≤ n ∧ n ≤ total ∧ l = lineEntry lines n))
      (extractLoop lines total ms (els, lm)).1
      (extractLoop lines total ms (els, lm)).2 := by
  intro ms
  induction ms with
  | nil =>
    intro els lm _ hF
    rw [extractLoop]
    exact hF
  | cons r rest ih =>
    rcases r with ⟨s, e⟩
    intro els lm hms hF
    have hs : 1 ≤ s := hms (s, e) (by simp)
    have hemitted : ∀ n ∈ (intRange s e).filter (fun n => decide (n ≤ total)),
        (n = -1 ∧ lineEntry lines n = regionSep)
          ∨ (1 ≤ n ∧ n ≤ total ∧ lineEntry lines n = lineEntry lines n) := by
      intro n hn
      rcases List.mem_filter.mp hn with ⟨hn1, hn2⟩
      right
      exact ⟨le_trans hs (intRange_mem s e n hn1).1, of_decide_eq_true hn2, rfl⟩
    have h2 := forall₂_map_self
      (fun l n => (n = -1 ∧ l = regionSep) ∨ (1 ≤ n ∧ n ≤ total ∧ l = lineEntry lines n))
      (lineEntry lines) ((intRange s e).filter (fun n => decide (n ≤ total))) hemitted
    have h1 : List.Forall₂ (fun l n => (n = -1 ∧ l = regionSep)
        ∨ (1 ≤ n ∧ n ≤ total ∧ l = lineEntry lines n))
        (if els.isEmpty then els else els ++ [regionSep])
        (if els.isEmpty then lm else lm ++ [-1]) := by
      cases hemp : els.isEmpty
      · simp only [Bool.false_eq_true, if_neg, if_false]
        exact List.rel_append hF (by simp)
      · simp only [if_pos, if_true]
        exact hF
    rw [extractLoop]
    exact ih _ _ (fun x hx => hms x (by simp [hx])) (List.rel_append h1 h2)

/-! ### Claim C10: safety of `extract_changed_regions` -/

/-- C10 counterexample: with no ranges the excerpt text is empty and
`line_map = []`, but the empty text still splits into one (empty) line, so
"the length of line_map equals the number of lines in the returned excerpt
text" fails at the empty boundary (Python: `len("".split("\n")) == 1`). -/
theorem extract_empty_excerpt_line_count :
    extract_changed_regions (['a']) [] 5 = ([], []) ∧
    (splitLines []).length = 1 ∧ ([] : List Int).length = 0 := by
  refine ⟨by decide, by decide, rfl⟩

/-- C10 amended: `extract_changed_regions` is total and performs no
out-of-bounds read: every non-sentinel `line_map` entry lies in
`[1, total_lines]`; `line_map` has one entry per emitted excerpt line — when
anything is emitted the excerpt splits back into exactly
`line_map.length` lines, and when nothing is emitted both the text and
`line_map` are empty (the empty text itself splits into one empty line); and
for every non-sentinel entry `n` at index `i`, original line `n` exists and
excerpt line `i` is exactly that line prefixed with `L<n>: `. -/
theorem extract_line_map_sound (file_text : List Char) (line_ranges : List (Int × Int))
    (context_lines : Int) :
    (∀ n ∈ (extract_changed_regions file_text line_ranges context_lines).2,
        n ≠ -1 → 1 ≤ n ∧ n ≤ ((splitLines file_text).length : Int)) ∧
    ((extract_changed_regions file_text line_ranges context_lines).2 = [] →
        (extract_changed_regions file_text line_ranges context_lines).1 = []) ∧
    ((extract_changed_regions file_text line_ranges context_lines).2 ≠ [] →
        (splitLines (extract_changed_regions file_text line_ranges context_lines).1).length
          = (extract_changed_regions file_text line_ranges context_lines).2.length) ∧
    (∀ (i : Nat) (n : Int),
        (extract_changed_regions file_text line_ranges context_lines).2.get? i = some n →
        n ≠ -1 →
        ∃ l, (splitLines file_text).get? (n - 1).toNat = some l ∧
          (splitLines (extract_changed_regions file_text line_ranges context_lines).1).get? i
            = some ('L' :: (intStr n ++ (':' :: ' ' :: l)))) := by
  set lines := splitLines file_text with hLdef
  set total : Int := (lines.length : Int) with hTdef
  set merged := mergeRanges line_ranges context_lines total with hMdef
  set els := (extractLoop lines total merged ([], [])).1 with hEdef
  set lm := (extractLoop lines total merged ([], [])).2 with hlmdef
  have hstart : ∀ r ∈ merged, 1 ≤ r.1 := fun r hr =>
    (mergeRanges_mem_bounds line_ranges context_lines total r hr).1
  have hF : List.Forall₂ (fun l n => (n = -1 ∧ l = regionSep)
      ∨ (1 ≤ n ∧ n ≤ total ∧ l = lineEntry lines n)) els lm :=
    extractLoop_forall₂ lines total merged [] [] hstart (by simp)
  have hlinesnl : ∀ l ∈ lines, '\n' ∉ l := splitLines_no_newline file_text
  have hnl : ∀ l ∈ els, '\n' ∉ l := by
    intro l hl
    rcases forall₂_mem_left hF l hl with ⟨n, _, hP⟩
    rcases hP with ⟨_, h2⟩ | ⟨_, _, h2⟩
    · subst h2; decide
    · subst h2; exact lineEntry_no_newline lines hlinesnl n
  have hlen : els.length = lm.length := hF.length_eq
  have hres1 : (extract_changed_regions file_text line_ranges context_lines).1
      = joinLines els := rfl
  have hres2 : (extract_changed_regions file_text line_ranges context_lines).2 = lm := rfl
  rw [hres1, hres2]
  refine ⟨?_, ?_, ?_, ?_⟩
  · intro n hn hne
    rcases forall₂_mem_right hF n hn with ⟨l, _, hP⟩
    rcases hP with ⟨h1, _⟩ | ⟨h1, h2, _⟩
    · exact absurd h1 hne
    · exact ⟨h1, h2⟩
  · intro h0
    have : els = [] := List.length_eq_zero.mp (by rw [hlen, h0]; rfl)
    simp [this, joinLines]
  · intro h0
    have hene : els ≠ [] := by
      intro hc
      exact h0 (List.length_eq_zero.mp (by rw [← hlen, hc]; rfl))
    rw [splitLines_joinLines els hene hnl, hlen]
  · intro i n hget hne
    have hlmne : lm ≠ [] := by
      intro hc
      rw [hc] at hget
      simp at hget
    have hene : els ≠ [] := by
      intro hc
      exact hlmne (List.length_eq_zero.mp (by rw [← hlen, hc]; rfl))
    rcases forall₂_get? hF i n hget with ⟨l0, hl0, hP⟩
    rcases hP with ⟨h1, _⟩ | ⟨h1, h2, h3⟩
    · exact absurd h1 hne
    have hk : (n - 1).toNat < lines.length := by omega
    have hgetl : lines.get? (n - 1).toNat = some (lines.getD (n - 1).toNat []) := by
      rw [List.getD_eq_get?, List.get?_eq_get hk]
      rfl
    refine ⟨lines.getD (n - 1).toNat [], hgetl, ?_⟩
    rw [splitLines_joinLines els hene hnl, hl0, h3]
    rfl

/-- C10 amended-claim witness: document `"a\nb\nc\nd"`, range `(3,3)`,
context 1; entry `2` at index 0 maps to excerpt line `"L2: b"`. -/
theorem extract_line_map_sound_witness :
    (1 ≤ (2 : Int) ∧ (2 : Int) ≤ ((splitLines ("a\nb\nc\nd".toList)).length : Int)) ∧
    (∃ l, (splitLines ("a\nb\nc\nd".toList)).get? ((2 : Int) - 1).toNat = some l ∧
      (splitLines (extract_changed_regions ("a\nb\nc\nd".toList) [(3, 3)] 1).1).get? 0
        = some ('L' :: (intStr 2 ++ (':' :: ' ' :: l)))) := by
  have h := extract_line_map_sound ("a\nb\nc\nd".toList) [(3, 3)] 1
  exact ⟨h.1 2 (by decide) (by decide), h.2.2.2 0 2 (by decide) (by decide)⟩

/-! ### Claim C7: separators between extracted blocks -/

theorem extractLoop_pair_nil (lines : List (List Char)) (total : Int)
    (els : List (List Char)) (lm : List Int) :
    extractLoop lines total [] (els, lm) = (els, lm) := rfl

theorem extractLoop_cons (lines : List (List Char)) (total : Int) (s e : Int)
    (rest : List (Int × Int)) (els : List (List Char)) (lm : List Int) :
    extractLoop lines total ((s, e) :: rest) (els, lm)
      = extractLoop lines total rest
          ((if els.isEmpty then els else els ++ [regionSep])
              ++ ((intRange s e).filter (fun n => decide (n ≤ total))).map (lineEntry lines),
            (if els.isEmpty then lm else lm ++ [-1])
              ++ (intRange s e).filter (fun n => decide (n ≤ total))) := rfl

theorem sepJoin_flatten {α : Type} (sep : α) :
    ∀ (bs : List (List α)) (b : List α),
    sepJoin sep (b :: bs) = b ++ (bs.map (fun c => sep :: c)).flatten := by
  intro bs
  induction bs with
  | nil => intro b; simp [sepJoin]
  | cons c bs' ih =>
    intro b
    rw [sepJoin, ih c]
    simp

theorem extractLoop_acc (lines : List (List Char)) (total : Int) :
    ∀ (ms : List (Int × Int)) (els : List (List Char)) (lm : List Int), els ≠ [] →
    (extractLoop lines total ms (els, lm)).1
        = els ++ (ms.map (fun r => regionSep ::
            ((intRange r.1 r.2).filter (fun n => decide (n ≤ total))).map
              (lineEntry lines))).flatten ∧
    (extractLoop lines total ms (els, lm)).2
        = lm ++ (ms.map (fun r => (-1 : Int) ::
            (intRange r.1 r.2).filter (fun n => decide (n ≤ total)))).flatten := by
  intro ms
  induction ms with
  | nil =>
    intro els lm _
    rw [extractLoop_pair_nil]
    simp
  | cons r rest ih =>
    rcases r with ⟨s, e⟩
    intro els lm hne
    have hemp : ¬ els.isEmpty = true := by
      cases els with
      | nil => exact absurd rfl hne
      | cons a t => simp
    rw [extractLoop_cons, if_neg hemp, if_neg hemp]
    have hne2 : (els ++ [regionSep])
        ++ ((intRange s e).filter (fun n => decide (n ≤ total))).map (lineEntry lines)
        ≠ [] := by simp
    rcases ih ((els ++ [regionSep])
        ++ ((intRange s e).filter (fun n => decide (n ≤ total))).map (lineEntry lines))
      ((lm ++ [-1]) ++ (intRange s e).filter (fun n => decide (n ≤ total))) hne2
      with ⟨ih1, ih2⟩
    constructor
    · rw [ih1]
      simp [List.append_assoc]
    · rw [ih2]
      simp [List.append_assoc]

/-- C7 (confirmed): when every input range still covers at least one document
line after clamping (so each merged range yields a nonempty block), the
extraction emits the blocks of the merged ranges joined by exactly one
separator between consecutive blocks: one `"..."` line in the text and one
`-1` sentinel in `line_map`. -/
theorem extract_separator_between_blocks (file_text : List Char)
    (line_ranges : List (Int × Int)) (context_lines : Int)
    (h : ∀ r ∈ line_ranges,
      max 1 (r.1 - context_lines)
        ≤ min ((splitLines file_text).length : Int) (r.2 + context_lines)) :
    (extract_changed_regions file_text line_ranges context_lines).2
      = sepJoin (-1)
          ((mergeRanges line_ranges context_lines ((splitLines file_text).length : Int)).map
            (fun r => intRange r.1 r.2)) ∧
    (extractLoop (splitLines file_text) ((splitLines file_text).length : Int)
        (mergeRanges line_ranges context_lines ((splitLines file_text).length : Int))
        ([], [])).1
      = sepJoin regionSep
          ((mergeRanges line_ranges context_lines ((splitLines file_text).length : Int)).map
            (fun r => (intRange r.1 r.2).map (lineEntry (splitLines file_text)))) := by
  set lines := splitLines file_text with hLdef
  set total : Int := (lines.length : Int) with hTdef
  set merged := mergeRanges line_ranges context_lines total with hMdef
  have hres2 : (extract_changed_regions file_text line_ranges context_lines).2
      = (extractLoop lines total merged ([], [])).2 := rfl
  have hnd : ∀ r ∈ merged, r.1 ≤ r.2 := by
    intro r hr
    rw [hMdef, mergeRanges, List.mem_reverse] at hr
    refine mergeLoop_nondeg _ [] (by simp) ?_ r hr
    intro x hx
    have hx' : x ∈ line_ranges.map (expandClamp context_lines total) :=
      (List.perm_insertionSort lexLe _).mem_iff.mp hx
    rcases List.mem_map.mp hx' with ⟨y, hy, hxy⟩
    subst hxy
    exact h y hy
  have hbd : ∀ r ∈ merged, 1 ≤ r.1 ∧ r.2 ≤ total :=
    mergeRanges_mem_bounds line_ranges context_lines total
  have hfilter : ∀ r ∈ merged,
      (intRange r.1 r.2).filter (fun n => decide (n ≤ total)) = intRange r.1 r.2 := by
    intro r hr
    apply List.filter_eq_self.mpr
    intro n hn
    exact decide_eq_true (le_trans (intRange_mem _ _ n hn).2 (hbd r hr).2)
  rw [hres2]
  cases hM : merged with
  | nil =>
    rw [extractLoop_pair_nil]
    simp [sepJoin]
  | cons r0 rest =>
    rcases r0 with ⟨s, e⟩
    have hmem0 : (s, e) ∈ merged := by rw [hM]; simp
    have hs0 : s ≤ e := hnd (s, e) hmem0
    have hblock : (intRange s e).filter (fun n => decide (n ≤ total)) = intRange s e :=
      hfilter (s, e) hmem0
    have hbne : intRange s e ≠ [] := intRange_ne_nil s e hs0
    rw [extractLoop_cons]
    simp only [List.isEmpty_nil, if_pos, if_true, List.nil_append]
    have hmne : (intRange s e).filter (fun n => decide (n ≤ total)) ≠ [] := by
      rw [hblock]; exact hbne
    have hmapne : ((intRange s e).filter (fun n => decide (n ≤ total))).map
        (lineEntry lines) ≠ [] := by
      simp only [ne_eq, List.map_eq_nil_iff]
      exact hmne
    rcases extractLoop_acc lines total rest
        (((intRange s e).filter (fun n => decide (n ≤ total))).map (lineEntry lines))
        ((intRange s e).filter (fun n => decide (n ≤ total))) hmapne with ⟨ih1, ih2⟩
    have hrest_lm : rest.map (fun r => (-1 : Int) ::
          (intRange r.1 r.2).filter (fun n => decide (n ≤ total)))
        = rest.map (fun r => (-1 : Int) :: intRange r.1 r.2) := by
      refine List.map_congr_left ?_
      intro x hx
      rw [hfilter x (by rw [hM]; simp [hx])]
    have hrest_els : rest.map (fun r => regionSep ::
          ((intRange r.1 r.2).filter (fun n => decide (n ≤ total))).map (lineEntry lines))
        = rest.map (fun r => regionSep :: (intRange r.1 r.2).map (lineEntry lines)) := by
      refine List.map_congr_left ?_
      intro x hx
      rw [hfilter x (by rw [hM]; simp [hx])]
    constructor
    · rw [ih2, hrest_lm, hblock, List.map_cons, sepJoin_flatten]
      rw [List.map_map]
      rfl
    · rw [ih1, hrest_els, hblock, List.map_cons, sepJoin_flatten]
      rw [List.map_map]
      rfl

/-- C7 witness: ranges `(2,2)` and `(10,10)`, context 1, 20-line document —
`line_map` is two blocks `[1,2,3]` and `[9,10,11]` separated by exactly one
`-1` sentinel. -/
theorem extract_separator_between_blocks_witness :
    (extract_changed_regions
        (("l1\nl2\nl3\nl4\nl5\nl6\nl7\nl8\nl9\nl10\nl11\nl12\nl13\nl14\nl15\nl16\nl17\nl18\nl19\nl20").toList)
        [(2, 2), (10, 10)] 1).2
      = [1, 2, 3, -1, 9, 10, 11] :=
  (extract_separator_between_blocks
    (("l1\nl2\nl3\nl4\nl5\nl6\nl7\nl8\nl9\nl10\nl11\nl12\nl13\nl14\nl15\nl16\nl17\nl18\nl19\nl20").toList)
    [(2, 2), (10, 10)] 1 (by decide)).1.trans (by decide)

end RedPen
